import Mathlib

/-!
Verification of `releng/devkit.py` (devkit generator: header amalgamation,
archive combination, flag normalization, dependency-to-archive mapping).

The Python source is shallowly embedded below.  Pure string/list processing
is translated directly; effectful parts (filesystem probes, CPython set
iteration order, subprocess success/failure) are made explicit parameters
or small state machines.  Each definition's doc comment names the source
function and lines it embeds.
-/

/-! ### Python string primitives -/

/-- Python `s.startswith(pre)`, on the underlying character lists. -/
def strStartsWith (s pre : String) : Bool := pre.data.isPrefixOf s.data

/-- Python `s.endswith(post)`, on the underlying character lists. -/
def strEndsWith (s post : String) : Bool := post.data.isSuffixOf s.data

/-- Python `s[n:]`. -/
def pyDrop (s : String) (n : Nat) : String := String.mk (s.data.drop n)

/-- Python `sep.join(xs)`. -/
def joinWith (sep : String) : List String → String
  | [] => ""
  | [x] => x
  | x :: y :: rest => x ++ sep ++ joinWith sep (y :: rest)

/-- Worker for `pySplit`: splits on every single space character,
producing empty items for runs of spaces, exactly like Python
`s.split(" ")`. -/
def splitSpaceAux : List Char → List Char → List String
  | [], acc => [String.mk acc.reverse]
  | c :: rest, acc =>
    if c = ' ' then String.mk acc.reverse :: splitSpaceAux rest []
    else splitSpaceAux rest (c :: acc)

/-- Python `s.split(" ")` (note: `"".split(" ") == [""]`). -/
def pySplit (s : String) : List String := splitSpaceAux s.data []

/-! ### `deduplicate` (devkit.py lines 823-824)

`list(OrderedDict.fromkeys(items))`: first occurrence wins, order kept. -/

/-- Worker for `deduplicate`, carrying the set of already-seen items. -/
def dedupAux : List String → List String → List String
  | [], _ => []
  | x :: rest, seen =>
    if x ∈ seen then dedupAux rest seen
    else x :: dedupAux rest (x :: seen)

/-- `deduplicate` of devkit.py lines 823-824. -/
def deduplicate (items : List String) : List String := dedupAux items []

/-! ### `trim_flags` (devkit.py lines 779-821) -/

/-- First compile-flag pass of `trim_flags` (lines 783-789): drop each
`-include <path>` pair as a unit.  `none` models the `IndexError` Python
raises when `-include` is the last token (`pending_cflags.pop(0)` on an
empty list). -/
def dropIncludes : List String → Option (List String)
  | [] => some []
  | flag :: rest =>
    if flag = "-include" then
      match rest with
      | [] => none
      | _ :: rest2 => dropIncludes rest2
    else (dropIncludes rest).map (fun l => flag :: l)

/-- First link-flag pass of `trim_flags` (lines 794-800): drop an
`-arch <value>` / `-isysroot <value>` pair as a unit when the flag token
itself occurs among the deduplicated compile tokens (`existing`).
`none` models the `IndexError` when the value token is missing. -/
def dropArchPairs (existing : List String) : List String → Option (List String)
  | [] => some []
  | flag :: rest =>
    if (flag = "-arch" ∨ flag = "-isysroot") ∧ flag ∈ existing then
      match rest with
      | [] => none
      | _ :: rest2 => dropArchPairs existing rest2
    else (dropArchPairs existing rest).map (fun l => flag :: l)

/-- Inner `while flag.startswith("-Wl,")` loop of `trim_flags`
(lines 807-814): starting from `flag` with remaining tokens `pending`,
collect the `-Wl,`-stripped parts of the run; returns
(collected parts, the non-`-Wl,` token that ended the run if any
(`flag = None` in Python when tokens ran out), remaining tokens). -/
def takeWlRun : String → List String → List String × Option String × List String
  | flag, pending =>
    if strStartsWith flag "-Wl," then
      match pending with
      | [] => ([pyDrop flag 4], none, [])
      | next :: rest =>
        let r := takeWlRun next rest
        (pyDrop flag 4 :: r.1, r.2.1, r.2.2)
    else ([], some flag, pending)

/-- Second link-flag pass of `trim_flags` (lines 802-819), with an
explicit fuel that is always instantiated with the token count (each
outer iteration consumes at least the token it popped, so the loop runs
at most `tokens.length` times; the `0, _ :: _` case is unreachable from
`mergeWlPass`).  Each maximal `-Wl,` run is merged into one token; a
non-`-Wl,` token is kept iff it is not among the compile tokens. -/
def mergeWlGo (existing : List String) : Nat → List String → List String
  | _, [] => []
  | 0, _ :: _ => []
  | fuel + 1, flag :: pending =>
    let r := takeWlRun flag pending
    (if r.1 = [] then [] else ["-Wl," ++ joinWith "," r.1]) ++
      (match r.2.1 with
       | none => []
       | some f => if f ∈ existing then [] else [f]) ++
      mergeWlGo existing fuel r.2.2

/-- The second link-flag pass of `trim_flags` (lines 802-819). -/
def mergeWlPass (existing tokens : List String) : List String :=
  mergeWlGo existing tokens.length tokens

/-- `trim_flags` on the token lists (devkit.py lines 779-821, between the
initial `.split(" ")` and the final `" ".join`).  `none` models an
uncaught `IndexError`. -/
def trim_flags_core (ctokens ltokens : List String) :
    Option (List String × List String) :=
  match dropIncludes ctokens with
  | none => none
  | some tc0 =>
    let tc := deduplicate tc0
    match dropArchPairs tc ltokens with
    | none => none
    | some tl0 => some (tc, mergeWlPass tc tl0)

/-- `trim_flags` of devkit.py lines 779-821, on whole flag strings. -/
def trim_flags (cflags ldflags : String) : Option (String × String) :=
  (trim_flags_core (pySplit cflags) (pySplit ldflags)).map
    (fun p => (joinWith " " p.1, joinWith " " p.2))

/-! ### `resolve_library_paths` and the `infer_*` helpers
(devkit.py lines 277-300) -/

/-- `infer_library_dirs` (lines 277-278). -/
def infer_library_dirs (flags : List String) : List String :=
  (flags.filter (fun f => strStartsWith f "-L")).map (fun f => pyDrop f 2)

/-- `infer_library_names` (lines 280-281). -/
def infer_library_names (flags : List String) : List String :=
  (flags.filter (fun f => strStartsWith f "-l")).map (fun f => pyDrop f 2)

/-- `infer_linker_flags` (lines 283-284). -/
def infer_linker_flags (flags : List String) : List String :=
  flags.filter (fun f => strStartsWith f "-Wl")

/-- `os.path.join(d, f)` for POSIX paths. -/
def pyPathJoin (d f : String) : String :=
  if strStartsWith f "/" then f
  else if d = "" then f
  else if strEndsWith d "/" then d ++ f
  else d ++ "/" ++ f

/-- The inner directory probe of `resolve_library_paths` (lines 290-295):
first directory containing `lib<name>.a`, mapped to the candidate path.
`ex` is the filesystem probe (`os.path.exists`). -/
def firstHit (ex : String → Bool) (dirs : List String) (name : String) :
    Option String :=
  (dirs.find? (fun d => ex (pyPathJoin d ("lib" ++ name ++ ".a")))).map
    (fun d => pyPathJoin d ("lib" ++ name ++ ".a"))

/-- The name loop of `resolve_library_paths` (lines 287-299): resolved
paths (with duplicates, in name order) and passthrough `-l<name>` flags. -/
def resolveNames (ex : String → Bool) (dirs : List String) :
    List String → List String × List String
  | [] => ([], [])
  | name :: rest =>
    let r := resolveNames ex dirs rest
    match firstHit ex dirs name with
    | some p => (p :: r.1, r.2)
    | none => (r.1, ("-l" ++ name) :: r.2)

/-- `resolve_library_paths` (lines 286-300).  The final Python expression
is `list(set(paths))`; CPython set iteration order is hash-dependent and
unspecified, so it is modelled by the parameter `listSet`, constrained in
the theorems by `SetListCompliant`. -/
def resolve_library_paths (ex : String → Bool)
    (listSet : List String → List String) (names dirs : List String) :
    List String × List String :=
  ((resolveNames ex dirs names).1 |> listSet, (resolveNames ex dirs names).2)

/-- What CPython guarantees about `list(set(xs))`: a duplicate-free list
with the same membership as `xs` (no order guarantee). -/
def SetListCompliant (f : List String → List String) : Prop :=
  ∀ xs, (f xs).Nodup ∧ ∀ a, a ∈ f xs ↔ a ∈ xs

/-- One concrete `SetListCompliant` order: dedup then reverse (a set
order CPython can really produce for two-element sets under hash
randomization). -/
def revDedup (xs : List String) : List String := (deduplicate xs).reverse

/-! ### Archive combination (devkit.py lines 189-230 and 243-273)

Both platform variants share the collision-renaming loop:
`while object_name in object_names: object_name = "_" + object_name`. -/

/-- The renaming `while` loop, fueled; `claimName` supplies fuel
`taken.length + 1`, enough because each prefix step yields a strictly
longer (hence fresh) name, so at most `taken.length` steps can collide. -/
def pickObjectName (taken : List String) : Nat → String → String
  | 0, name => name
  | fuel + 1, name =>
    if name ∈ taken then pickObjectName taken fuel ("_" ++ name)
    else name

/-- Collision-free name for a new member given the names already claimed
(lines 202-204 / 255-257). -/
def claimName (taken : List String) (name : String) : String :=
  pickObjectName taken (taken.length + 1) name

/-- Processing of one source archive (lines 198-211 / 253-258): keep only
members with the object-file extension `ext` (".o" on POSIX via
`glob("*.o")`, ".obj" on Windows), and move each into the accumulation
set under its collision-resolved name.  The returned list records the
claimed names in contribution order. -/
def addArchiveMembers (ext : String) (taken : List String)
    (members : List String) : List String :=
  (members.filter (fun m => strEndsWith m ext)).foldl
    (fun acc m => acc ++ [claimName acc m]) taken

/-- The member-name accumulation across all source archives, in archive
order (lines 192-211 / 246-258).  The combined archive is packed from
exactly these member names. -/
def combineArchives (ext : String) (archives : List (List String)) :
    List String :=
  archives.foldl (addArchiveMembers ext) []

/-! ### Scratch-directory lifecycle of `generate_library_unix` /
`generate_library_windows` (devkit.py lines 189-230 and 243-275)

State machines tracking which temp directories exist.  Directory ids are
allocated by a counter (`mkdtemp`); the accumulation dir is id 0.
`extractOk`/`packOk` say whether the corresponding `subprocess` call
succeeds; `false` models the raised `CalledProcessError`, which
propagates out of the function (there is no `try`/`finally` in the
source). -/

structure ArEnv where
  extractOk : String → Bool
  packOk : Bool

/-- The per-archive loop of `generate_library_unix` (lines 246-260):
`mkdtemp` a scratch dir, `$AR x`, move objects, `rmtree` the scratch dir.
Returns (no exception raised, directories alive, next fresh id). -/
def unixCombineLoop (env : ArEnv) :
    List String → List Nat → Nat → Bool × List Nat × Nat
  | [], alive, next => (true, alive, next)
  | lib :: rest, alive, next =>
    let scratch := next
    let alive1 := scratch :: alive
    if env.extractOk lib then
      unixCombineLoop env rest (alive1.erase scratch) (next + 1)
    else (false, alive1, next + 1)

/-- Directory lifecycle of `generate_library_unix` (lines 243-275):
`mkdtemp` the accumulation dir (id 0), run the archive loop, `$AR rcs`,
read the bytes, `rmtree` the accumulation dir.  Returns (success,
directories still existing when control leaves the function). -/
def generate_library_unix_dirs (env : ArEnv) (libs : List String) :
    Bool × List Nat :=
  let combined := 0
  let r := unixCombineLoop env libs [combined] 1
  if r.1 then
    if env.packOk then (true, r.2.1.erase combined) else (false, r.2.1)
  else (false, r.2.1)

structure WinEnv where
  listOk : String → Bool
  members : String → List String
  extractOk : String → String → Bool
  packOk : Bool

/-- Whether every `lib.exe /list` and `/extract` call of
`generate_library_windows` (lines 192-211) succeeds. -/
def winLoopOk (env : WinEnv) (libs : List String) : Bool :=
  libs.all (fun lib => env.listOk lib &&
    ((env.members lib).filter (fun m => strEndsWith m ".obj")).all
      (fun m => env.extractOk lib m))

/-- Directory lifecycle of `generate_library_windows` (lines 189-230):
one `mkdtemp` accumulation dir (id 0), the extraction loop, the
`lib.exe /out` pack, read, `rmtree`. -/
def generate_library_windows_dirs (env : WinEnv) (libs : List String) :
    Bool × List Nat :=
  let combined := 0
  if winLoopOk env libs then
    if env.packOk then (true, ([combined]).erase combined)
    else (false, [combined])
  else (false, [combined])

/-! ### `generate_devkit` artifact sequencing (devkit.py lines 23-47) -/

/-- Success/failure of each generation step of one `generate_devkit`
run: the umbrella-header existence check (line 31), `generate_header`
(line 33), `generate_library` (line 38), `generate_example` (line 43).
`false` models a raised exception. -/
structure KitEnv where
  umbrellaExists : Bool
  headerOk : Bool
  libraryOk : Bool
  exampleOk : Bool

/-- `generate_devkit` (lines 23-47) as a file-writing sequence: each
artifact is written to the output directory immediately after its own
generation step succeeds (lines 34-35, 39-40, 44-45); an exception
aborts the run, leaving the files already written.  Returns (files
present in the output directory when control leaves, run succeeded).
Unix artifact naming (`compute_library_filename`, line 749). -/
def generate_devkit_model (kit : String) (env : KitEnv) :
    List String × Bool :=
  if !env.umbrellaExists then ([], false)
  else if !env.headerOk then ([], false)
  else if !env.libraryOk then ([kit ++ ".h"], false)
  else if !env.exampleOk then ([kit ++ ".h", "lib" ++ kit ++ ".a"], false)
  else ([kit ++ ".h", "lib" ++ kit ++ ".a", kit ++ "-example.c"], true)

/-! ### Header amalgamation (`ingest_header`, devkit.py lines 112-129,
and the driver in `generate_header`, lines 99-110) -/

/-- Characters matched by Python's `str.strip()` / regex `\s` (ASCII). -/
def isPySpace (c : Char) : Bool :=
  c = ' ' || c = '\t' || c = '\n' || c = '\r' || c = '\x0b' || c = '\x0c'

/-- Python `line.strip()`. -/
def pyStrip (l : List Char) : List Char :=
  ((l.dropWhile isPySpace).reverse.dropWhile isPySpace).reverse

/-- The lazy `(.*?)[>"]` tail of `INCLUDE_PATTERN`: capture up to the
first `>` or `"`; fail if none occurs (`.` does not cross a newline). -/
def takeUntilDelim : List Char → Option (List Char)
  | [] => none
  | c :: rest =>
    if c = '>' || c = '\"' then some []
    else if c = '\n' then none
    else (takeUntilDelim rest).map (fun cs => c :: cs)

/-- `INCLUDE_PATTERN.match(line.strip())` for the regex
`#include\s+[<"](.*?)[>"]` (devkit.py line 15): anchored at the start of
the stripped line, at least one whitespace after `#include`, then `<` or
`"`, then the lazily captured name. -/
def parseIncludeChars (l : List Char) : Option (List Char) :=
  let t := pyStrip l
  if ("#include".data).isPrefixOf t then
    match t.drop 8 with
    | [] => none
    | c :: _ =>
      if isPySpace c then
        match (t.drop 8).dropWhile isPySpace with
        | '<' :: r => takeUntilDelim r
        | '\"' :: r => takeUntilDelim r
        | _ => none
      else none
  else none

/-- The captured include name of a source line, if the line is an
include directive. -/
def parseInclude (line : String) : Option String :=
  (parseIncludeChars line.data).map (fun cs => String.mk cs)

/-- The `for other_header in all_header_files ... endswith("/" + name)`
scan of `ingest_header` (lines 119-125): first closure file whose path
ends with `/<name>`. -/
def findLocal (all : List String) (name : String) : Option String :=
  all.find? (fun other => (('/' :: name.data)).isSuffixOf other.data)

/-- The local header (if any) that a source line's include directive
resolves to against the closure `all`. -/
def lineTargets (all : List String) (line : String) : Option String :=
  match parseInclude line with
  | none => none
  | some name => findLocal all name

/-- `ingest_header` (devkit.py lines 112-129) with the mutable state
threaded explicitly: `lines` are the unprocessed lines of the current
header, `processed` is `processed_header_files`, `result` is the output
line accumulator.  `trace` is a ghost field recording each header whose
body gets spliced, in splice order; dropping it yields the source
function verbatim.  The recursion is fueled: descending into a header
consumes one fuel unit, and the fuel `all.length` supplied by
`amalgamate` always suffices because every descent adds an unprocessed
closure member to `processed` (proved in `ingest_lines_total`); `none`
is the out-of-fuel marker, never returned under that fuel. -/
def ingest_lines (fs : String → List String) (all : List String)
    (fuel : Nat) (lines processed result trace : List String) :
    Option (List String × List String × List String) :=
  match lines with
  | [] => some (processed, result, trace)
  | line :: rest =>
    match parseInclude line with
    | none => ingest_lines fs all fuel rest processed (result ++ [line]) trace
    | some name =>
      match findLocal all name with
      | none => ingest_lines fs all fuel rest processed (result ++ [line]) trace
      | some other =>
        if other ∈ processed then
          ingest_lines fs all fuel rest processed result trace
        else
          match fuel with
          | 0 => none
          | fuel' + 1 =>
            match ingest_lines fs all fuel' (fs other) (other :: processed)
                result (trace ++ [other]) with
            | none => none
            | some (p1, r1, t1) =>
              ingest_lines fs all (fuel' + 1) rest p1 r1 t1
termination_by (fuel, lines.length)

/-- `ingest_header(header, all_header_files, processed, result)`:
process the lines of `header` (the filesystem is the map `fs` from
header path to its lines, as iterated by `for line in f`). -/
def ingest_header (fs : String → List String) (all : List String)
    (fuel : Nat) (header : String) (processed result trace : List String) :
    Option (List String × List String × List String) :=
  ingest_lines fs all fuel (fs header) processed result trace

/-- The amalgamation driver of `generate_header` (lines 99-103):
`umbrella_header = header_files[0]`, pre-seed it as processed, ingest.
`none` on an empty closure models the `IndexError` of `header_files[0]`.
Returns (processed set, output lines, ghost splice trace). -/
def amalgamate (fs : String → List String) (headerFiles : List String) :
    Option (List String × List String × List String) :=
  match headerFiles with
  | [] => none
  | umbrella :: _ =>
    ingest_header fs headerFiles headerFiles.length umbrella [umbrella] [] []

/-- The local-include graph on header paths: `edge fs all a b` iff some
line of `a` is an include directive resolving (first suffix match in
`all`) to `b`. -/
def edge (fs : String → List String) (all : List String)
    (a b : String) : Prop :=
  b ∈ (fs a).filterMap (lineTargets all)

/-- Reachability in the local-include graph. -/
def Reaches (fs : String → List String) (all : List String) :
    String → String → Prop :=
  Relation.ReflTransGen (edge fs all)

/-- Header `h` has no include directive that suffix-matches a file of
the closure `all` (decidable form). -/
def noLocalIncludes (fs : String → List String) (all : List String)
    (h : String) : Bool :=
  (fs h).all (fun line =>
    match parseInclude line with
    | none => true
    | some name => (findLocal all name).isNone)

/-! ### `DEVKITS` and the `generate_header` config line
(devkit.py lines 17-21 and 105-110) -/

/-- The kit catalog `DEVKITS` (lines 17-21), as (kit, package) pairs. -/
def DEVKITS : List (String × String) :=
  [("frida-gum", "frida-gum-1.0"),
   ("frida-gumjs", "frida-gumjs-1.0"),
   ("frida-core", "frida-core-1.0")]

/-- The config line computed at lines 105-108:
`"#define GUM_STATIC\n\n" if package.startswith("gum") else ""`. -/
def gumConfig (package : String) : String :=
  if strStartsWith package "gum" then "#define GUM_STATIC\n\n" else ""

/-- Lines 99-110 of `generate_header`: the amalgamated header text with
the config line prepended. -/
def generate_header_model (package : String) (fs : String → List String)
    (headerFiles : List String) : Option String :=
  (amalgamate fs headerFiles).map
    (fun out => gumConfig package ++ joinWith "" out.2.1)

/-! ### Concrete fixtures used by witnesses and counterexamples -/

/-- A two-header closure with a mutually recursive local include chain:
`src/a.h` includes `b.h` and `src/b.h` includes `a.h`. -/
def c2fs : String → List String := fun p =>
  if p = "src/a.h" then ["typedef int a;\n", "#include \"b.h\"\n"]
  else if p = "src/b.h" then ["#include \"a.h\"\n", "typedef int b;\n"]
  else []

/-- A header with a system include only (no local includes). -/
def c9fs : String → List String := fun p =>
  if p = "src/a.h" then ["typedef int x;\n", "#include <stdio.h>\n"]
  else []

/-- Archiver environment in which every extraction fails. -/
def arEnvFail : ArEnv := ⟨fun _ => false, true⟩

/-- Archiver environment in which every tool call succeeds. -/
def arEnvOk : ArEnv := ⟨fun _ => true, true⟩

/-- Windows archiver environment in which every tool call succeeds. -/
def winEnvOk : WinEnv := ⟨fun _ => true, fun _ => ["a.obj"], fun _ _ => true, true⟩

/-! ## Helper lemmas -/

/-- Strings with a common left part and right parts of different lengths
are different. -/
theorem str_append_ne_of_length_ne (a b c : String)
    (h : b.length ≠ c.length) : a ++ b ≠ a ++ c := by
  intro he
  apply h
  have hl := congrArg String.length he
  simp only [String.length_append] at hl
  omega

/-- The empty string is a left identity for append. -/
theorem str_empty_append (s : String) : "" ++ s = s := by
  cases s
  rfl

/-- The three artifact filenames of one kit are pairwise distinct. -/
theorem kit_names_distinct (kit : String) :
    kit ++ ".h" ≠ "lib" ++ kit ++ ".a"
    ∧ kit ++ ".h" ≠ kit ++ "-example.c"
    ∧ "lib" ++ kit ++ ".a" ≠ kit ++ "-example.c" := by
  have e1 : String.length ".h" = 2 := rfl
  have e2 : String.length ".a" = 2 := rfl
  have e3 : String.length "-example.c" = 10 := rfl
  have e4 : String.length "lib" = 3 := rfl
  refine ⟨?_, ?_, ?_⟩ <;> intro he <;>
    · have hl := congrArg String.length he
      simp only [String.length_append, e1, e2, e3, e4] at hl
      omega

/-! ## Claim C1 -/

/-- C1, counterexample: with the umbrella header present, header
generation succeeding and library generation failing, `generate_devkit`
leaves the header artifact in the output directory although the run did
not succeed — contradicting "the kit's header file, library file, and
example file appear in the output directory only when all generation
steps for that kit succeed". -/
theorem c1_counterexample :
    generate_devkit_model "frida-gum" ⟨true, true, false, true⟩
      = (["frida-gum.h"], false)
    ∧ ("frida-gum" ++ ".h")
        ∈ (generate_devkit_model "frida-gum" ⟨true, true, false, true⟩).1
    ∧ (generate_devkit_model "frida-gum" ⟨true, true, false, true⟩).2 = false := by
  decide

/-- C1, amended: artifacts are written incrementally, each right after
its own generation step succeeds.  A successful run writes exactly the
three artifacts; the example file appears only when the whole run
succeeded; and the library file appears only together with the header
file.  (The header file alone can persist after a failed run.) -/
theorem c1_amended (kit : String) (env : KitEnv) :
    ((generate_devkit_model kit env).2 = true →
      (generate_devkit_model kit env).1
        = [kit ++ ".h", "lib" ++ kit ++ ".a", kit ++ "-example.c"])
    ∧ ((kit ++ "-example.c") ∈ (generate_devkit_model kit env).1 →
      (generate_devkit_model kit env).2 = true)
    ∧ (("lib" ++ kit ++ ".a") ∈ (generate_devkit_model kit env).1 →
      (kit ++ ".h") ∈ (generate_devkit_model kit env).1) := by
  obtain ⟨hne1, hne2, hne3⟩ := kit_names_distinct kit
  obtain ⟨u, hd, lb, ex⟩ := env
  cases u <;> cases hd <;> cases lb <;> cases ex <;>
    simp [generate_devkit_model, hne1, hne2, hne3,
      hne1.symm, hne2.symm, hne3.symm]

/-- C1 witness: on an all-successful run all three artifacts are
present. -/
theorem c1_witness :
    (generate_devkit_model "frida-gum" ⟨true, true, true, true⟩).1
      = ["frida-gum" ++ ".h", "lib" ++ "frida-gum" ++ ".a",
         "frida-gum" ++ "-example.c"] :=
  (c1_amended "frida-gum" ⟨true, true, true, true⟩).1 (by decide)

/-! ## Claim C3 -/

/-- If the unix extraction loop raises no exception, it removes every
scratch directory it created. -/
theorem unixCombineLoop_ok_alive (env : ArEnv) :
    ∀ (libs : List String) (alive : List Nat) (next : Nat),
      (unixCombineLoop env libs alive next).1 = true →
      (unixCombineLoop env libs alive next).2.1 = alive := by
  intro libs
  induction libs with
  | nil => intro alive next _; rfl
  | cons lib rest ih =>
    intro alive next h
    by_cases hx : env.extractOk lib
    · simp only [unixCombineLoop, hx, if_true, List.erase_cons_head] at h ⊢
      exact ih _ _ h
    · simp [unixCombineLoop, hx] at h

/-- C3, counterexample: when the very first `$AR x` invocation raises,
`generate_library_unix` returns (propagates the exception) with both the
scratch directory and the accumulation directory still existing — there
is no `try`/`finally` in the source, contradicting "removed before the
call returns on both the success path and the failure path". -/
theorem c3_counterexample :
    generate_library_unix_dirs arEnvFail ["libfrida-gum.a"] = (false, [1, 0])
    ∧ (generate_library_unix_dirs arEnvFail ["libfrida-gum.a"]).2 ≠ [] := by
  decide

/-- C3, amended: on the success path every scratch and accumulation
directory is removed before the call returns (on both platforms); when a
tool invocation raises, the directories created before the failure are
leaked. -/
theorem c3_amended (uenv : ArEnv) (wenv : WinEnv) (ulibs wlibs : List String) :
    ((generate_library_unix_dirs uenv ulibs).1 = true →
      (generate_library_unix_dirs uenv ulibs).2 = [])
    ∧ ((generate_library_windows_dirs wenv wlibs).1 = true →
      (generate_library_windows_dirs wenv wlibs).2 = []) := by
  constructor
  · intro h
    have halive := unixCombineLoop_ok_alive uenv ulibs [0] 1
    simp only [generate_library_unix_dirs] at h ⊢
    by_cases hok : (unixCombineLoop uenv ulibs [0] 1).1 = true
    · specialize halive hok
      by_cases hp : uenv.packOk = true
      · simp [hok, hp, halive]
      · simp [hok, hp] at h
    · simp [hok] at h
  · intro h
    simp only [generate_library_windows_dirs] at h ⊢
    by_cases hl : winLoopOk wenv wlibs = true
    · by_cases hp : wenv.packOk = true
      · simp [hl, hp]
      · simp [hl, hp] at h
    · simp [hl] at h

/-- C3 witness: an all-successful unix run and an all-successful windows
run leave no temporary directory behind. -/
theorem c3_witness :
    (generate_library_unix_dirs arEnvOk ["libfrida-gum.a"]).2 = []
    ∧ (generate_library_windows_dirs winEnvOk ["gum.lib"]).2 = [] :=
  ⟨(c3_amended arEnvOk winEnvOk ["libfrida-gum.a"] ["gum.lib"]).1 (by decide),
   (c3_amended arEnvOk winEnvOk ["libfrida-gum.a"] ["gum.lib"]).2 (by decide)⟩

/-! ## Claim C7 -/

/-- C7, counterexample: combining archive A = {x.o, y.o} then
B = {x.o, z.o} yields FOUR members (B's colliding `x.o` is renamed to
`_x.o` and kept, nothing is dropped), not the three members the claim
states. -/
theorem c7_counterexample :
    combineArchives ".o" [["x.o", "y.o"], ["x.o", "z.o"]]
      = ["x.o", "y.o", "_x.o", "z.o"]
    ∧ (combineArchives ".o" [["x.o", "y.o"], ["x.o", "z.o"]]).length ≠ 3 := by
  decide

/-- C7, amended: combining A = {x.o, y.o} then B = {x.o, z.o} yields
exactly the four members x.o, y.o, _x.o, z.o, where the first archive to
contribute a name keeps it unprefixed and B's colliding `x.o` becomes
`_x.o`; swapping the archive order swaps which archive's `x.o` is
renamed. -/
theorem c7_amended :
    combineArchives ".o" [["x.o", "y.o"], ["x.o", "z.o"]]
      = ["x.o", "y.o", "_x.o", "z.o"]
    ∧ combineArchives ".o" [["x.o", "z.o"], ["x.o", "y.o"]]
      = ["x.o", "z.o", "_x.o", "y.o"] := by
  decide

/-! ## Claim C10 -/

/-- C10, confirmed: every package identifier in the kit catalog begins
with "frida-", while the config branch of `generate_header` tests for a
"gum" name prefix, so the `#define GUM_STATIC` line is never prepended:
the generated header is exactly the amalgamation output. -/
theorem c10_no_gum_config (kp : String × String) (hkp : kp ∈ DEVKITS) :
    gumConfig kp.2 = ""
    ∧ ∀ (fs : String → List String) (headerFiles : List String),
        generate_header_model kp.2 fs headerFiles
          = (amalgamate fs headerFiles).map (fun out => joinWith "" out.2.1) := by
  have hc : gumConfig kp.2 = "" := by
    simp only [DEVKITS, List.mem_cons, List.not_mem_nil, or_false] at hkp
    rcases hkp with rfl | rfl | rfl <;> decide
  refine ⟨hc, fun fs headerFiles => ?_⟩
  unfold generate_header_model
  rw [hc]
  cases amalgamate fs headerFiles with
  | none => rfl
  | some out => simp [str_empty_append]

/-- C10 witness: the frida-gum kit gets no config line. -/
theorem c10_witness :
    gumConfig ("frida-gum", "frida-gum-1.0").2 = ""
    ∧ ∀ (fs : String → List String) (headerFiles : List String),
        generate_header_model ("frida-gum", "frida-gum-1.0").2 fs headerFiles
          = (amalgamate fs headerFiles).map (fun out => joinWith "" out.2.1) :=
  c10_no_gum_config ("frida-gum", "frida-gum-1.0") (by decide)

/-! ## `deduplicate` lemmas -/

/-- Membership in `dedupAux`: present in the remaining input and not
already seen. -/
theorem dedupAux_mem (a : String) :
    ∀ (l seen : List String), a ∈ dedupAux l seen ↔ a ∈ l ∧ a ∉ seen := by
  intro l
  induction l with
  | nil => intro seen; simp [dedupAux]
  | cons x rest ih =>
    intro seen
    by_cases hax : a = x
    · subst hax
      by_cases hx : a ∈ seen <;>
        simp [dedupAux, hx, ih, List.mem_cons]
    · by_cases hx : x ∈ seen <;>
        simp [dedupAux, hx, ih, hax, List.mem_cons]

/-- `deduplicate` preserves membership. -/
theorem deduplicate_mem (a : String) (l : List String) :
    a ∈ deduplicate l ↔ a ∈ l := by
  simp [deduplicate, dedupAux_mem]

/-- `dedupAux` emits no duplicates. -/
theorem dedupAux_nodup : ∀ (l seen : List String), (dedupAux l seen).Nodup := by
  intro l
  induction l with
  | nil => intro seen; simp [dedupAux]
  | cons x rest ih =>
    intro seen
    by_cases hx : x ∈ seen
    · simpa [dedupAux, hx] using ih seen
    · simp only [dedupAux, if_neg hx]
      refine List.nodup_cons.mpr ⟨?_, ih _⟩
      rw [dedupAux_mem]
      rintro ⟨-, hmem⟩
      exact hmem (List.mem_cons_self x seen)

/-- `deduplicate` output has no duplicates. -/
theorem deduplicate_nodup (l : List String) : (deduplicate l).Nodup :=
  dedupAux_nodup l []

/-- `dedupAux` is an order-preserving selection of its input. -/
theorem dedupAux_sublist :
    ∀ (l seen : List String), (dedupAux l seen).Sublist l := by
  intro l
  induction l with
  | nil => intro seen; simp [dedupAux]
  | cons x rest ih =>
    intro seen
    by_cases hx : x ∈ seen
    · simp only [dedupAux, if_pos hx]
      exact (ih seen).cons x
    · simp only [dedupAux, if_neg hx]
      exact (ih _).cons₂ x

/-- `deduplicate` is an order-preserving selection of its input. -/
theorem deduplicate_sublist (l : List String) : (deduplicate l).Sublist l :=
  dedupAux_sublist l []

/-! ## Claim C4 -/

/-- C4, counterexample: the link-flag side of `trim_flags` performs no
global deduplication — `-lfoo -lfoo` survives verbatim (a link token is
only dropped when it also occurs among the compile tokens), so "no
duplicate flag survives in either output string" is false. -/
theorem c4_counterexample :
    trim_flags "" "-lfoo -lfoo" = some ("", "-lfoo -lfoo")
    ∧ ¬ (pySplit "-lfoo -lfoo").Nodup := by
  decide

/-- C4, amended: only the compile-flag output is deduplicated: the
returned compile tokens are duplicate-free and form an order-preserving
selection of the `-include`-stripped input with unchanged membership
(first occurrence wins).  The link-flag output is not deduplicated
against itself. -/
theorem c4_amended (c l tc tl : List String)
    (heq : trim_flags_core c l = some (tc, tl)) :
    tc.Nodup
    ∧ ∃ base, dropIncludes c = some base ∧ tc.Sublist base
        ∧ ∀ a, a ∈ tc ↔ a ∈ base := by
  cases hdi : dropIncludes c with
  | none => simp [trim_flags_core, hdi] at heq
  | some base =>
    cases hda : dropArchPairs (deduplicate base) l with
    | none => simp [trim_flags_core, hdi, hda] at heq
    | some tl0 =>
      simp only [trim_flags_core, hdi, hda, Option.some.injEq,
        Prod.mk.injEq] at heq
      obtain ⟨h1, -⟩ := heq
      subst h1
      exact ⟨deduplicate_nodup base, base, rfl, deduplicate_sublist base,
        fun a => deduplicate_mem a base⟩

/-- C4 witness: `-O2 -Wall -O2` trims to the duplicate-free
`-O2 -Wall`. -/
theorem c4_witness :
    (["-O2", "-Wall"] : List String).Nodup
    ∧ ∃ base, dropIncludes ["-O2", "-Wall", "-O2"] = some base
        ∧ (["-O2", "-Wall"] : List String).Sublist base
        ∧ ∀ a, a ∈ (["-O2", "-Wall"] : List String) ↔ a ∈ base :=
  c4_amended ["-O2", "-Wall", "-O2"] [""] ["-O2", "-Wall"] [""] (by decide)

/-! ## `-Wl,` run lemmas -/

/-- The inner run loop never lengthens the remaining token list. -/
theorem takeWlRun_rem_le :
    ∀ (pending : List String) (flag : String),
      (takeWlRun flag pending).2.2.length ≤ pending.length := by
  intro pending
  induction pending with
  | nil =>
    intro flag
    by_cases h : strStartsWith flag "-Wl," = true <;> simp [takeWlRun, h]
  | cons next rest ih =>
    intro flag
    by_cases h : strStartsWith flag "-Wl," = true
    · simp only [takeWlRun, h, if_true]
      calc (takeWlRun next rest).2.2.length ≤ rest.length := ih next
        _ ≤ (next :: rest).length := by simp
    · simp [takeWlRun, h]

/-- Any sufficient fuel computes the same second link pass as the
canonical fuel `l.length`. -/
theorem mergeWlGo_fuel (existing : List String) :
    ∀ (fuel : Nat) (l : List String), l.length ≤ fuel →
      mergeWlGo existing fuel l = mergeWlGo existing l.length l := by
  intro fuel
  induction fuel using Nat.strong_induction_on with
  | _ fuel ih =>
    intro l hl
    cases l with
    | nil => cases fuel <;> simp [mergeWlGo]
    | cons flag pending =>
      cases fuel with
      | zero => simp at hl
      | succ f =>
        have hrem := takeWlRun_rem_le pending flag
        have hlen : pending.length ≤ f := by simpa using hl
        rcases hr : takeWlRun flag pending with ⟨raws, stop, rem⟩
        have hremlen : rem.length ≤ pending.length := by
          have := takeWlRun_rem_le pending flag
          rw [hr] at this
          exact this
        simp only [mergeWlGo, List.length_cons, hr]
        rw [ih f (by omega) rem (le_trans hremlen hlen),
          ih pending.length (by omega) rem hremlen]

/-- `takeWlRun` on a `-Wl,` run followed by a non-run remainder collects
exactly the run's stripped parts and stops at the remainder's head. -/
theorem takeWlRun_append :
    ∀ (run2 : List String) (flag : String) (rest : List String),
      strStartsWith flag "-Wl," = true →
      (∀ f ∈ run2, strStartsWith f "-Wl," = true) →
      (rest.head?.all (fun f => !strStartsWith f "-Wl,") = true) →
      takeWlRun flag (run2 ++ rest)
        = ((flag :: run2).map (fun f => pyDrop f 4), rest.head?, rest.tail) := by
  intro run2
  induction run2 with
  | nil =>
    intro flag rest hflag hrun hrest
    cases rest with
    | nil => simp [takeWlRun, hflag]
    | cons g t =>
      have hg : strStartsWith g "-Wl," = false := by
        simpa [Option.all] using hrest
      have ht : takeWlRun g t = ([], some g, t) := by
        cases t <;> simp [takeWlRun, hg]
      simp [takeWlRun, hflag, ht]
  | cons x run3 ih =>
    intro flag rest hflag hrun hrest
    have hx : strStartsWith x "-Wl," = true := hrun x (List.mem_cons_self _ _)
    have hrun3 : ∀ f ∈ run3, strStartsWith f "-Wl," = true :=
      fun f hf => hrun f (List.mem_cons_of_mem _ hf)
    simp only [List.cons_append, takeWlRun, hflag, if_true, List.append_eq]
    rw [ih x rest hx hrun3 hrest]
    simp

/-- A token that is not `-Wl,`-prefixed ends a run immediately. -/
theorem takeWlRun_notWl (f : String) (l : List String)
    (hf : strStartsWith f "-Wl," = false) :
    takeWlRun f l = ([], some f, l) := by
  cases l <;> simp [takeWlRun, hf]

/-- Processing a non-`-Wl,` token in the second link pass: the token is
kept iff it is not among the compile tokens, and the pass continues. -/
theorem mergeWlPass_cons_notWl (existing : List String) (f : String)
    (l : List String) (hf : strStartsWith f "-Wl," = false) :
    mergeWlPass existing (f :: l)
      = (if f ∈ existing then [] else [f]) ++ mergeWlPass existing l := by
  show mergeWlGo existing (f :: l).length (f :: l) = _
  rw [show (f :: l).length = l.length + 1 from rfl]
  simp only [mergeWlGo, takeWlRun_notWl f l hf]
  simp [mergeWlPass]

/-! ## Claim C8 -/

/-- C8, confirmed: in the re-scanned link token list, a maximal run of
consecutive `-Wl,<x>` tokens (`run` nonempty, all `-Wl,`-prefixed, the
following token — if any — not `-Wl,`-prefixed) is collapsed into the
single token `-Wl,<x1>,<x2>,...` in argument order, placed at the
position of the first flag of the run, and the pass continues unchanged
on the remainder.  Instantiating `run := [-Wl,a, -Wl,b, -Wl,c]` gives
the collapse to `-Wl,a,b,c`. -/
theorem c8_wl_run_collapse (existing run rest : List String)
    (hne : run ≠ [])
    (hrun : ∀ f ∈ run, strStartsWith f "-Wl," = true)
    (hrest : rest.head?.all (fun f => !strStartsWith f "-Wl,") = true) :
    mergeWlPass existing (run ++ rest)
      = ("-Wl," ++ joinWith "," (run.map (fun f => pyDrop f 4)))
          :: mergeWlPass existing rest := by
  obtain ⟨flag, run2, rfl⟩ : ∃ a l, run = a :: l := by
    cases run with
    | nil => exact absurd rfl hne
    | cons a l => exact ⟨a, l, rfl⟩
  have hflag := hrun flag (List.mem_cons_self _ _)
  have hrun2 : ∀ f ∈ run2, strStartsWith f "-Wl," = true :=
    fun f hf => hrun f (List.mem_cons_of_mem _ hf)
  have htw := takeWlRun_append run2 flag rest hflag hrun2 hrest
  show mergeWlGo existing ((flag :: run2) ++ rest).length ((flag :: run2) ++ rest) = _
  rw [show ((flag :: run2) ++ rest).length = (run2 ++ rest).length + 1 from by simp,
    List.cons_append]
  simp only [mergeWlGo, htw]
  cases rest with
  | nil =>
    simp [mergeWlPass, mergeWlGo]
  | cons g t =>
    have hg : strStartsWith g "-Wl," = false := by
      simpa [Option.all] using hrest
    simp only [List.head?_cons, List.tail_cons]
    rw [mergeWlPass_cons_notWl existing g t hg]
    have hfuel : t.length ≤ (run2 ++ g :: t).length := by
      simp [List.length_append]
      omega
    rw [mergeWlGo_fuel existing (run2 ++ g :: t).length t hfuel]
    simp [mergeWlPass]

/-- C8 witness: three consecutive `-Wl,` flags collapse to one token. -/
theorem c8_witness :
    mergeWlPass ["x"] (["-Wl,a", "-Wl,b", "-Wl,c"] ++ [])
      = ("-Wl," ++ joinWith ","
            ((["-Wl,a", "-Wl,b", "-Wl,c"] : List String).map
              (fun f => pyDrop f 4)))
          :: mergeWlPass ["x"] [] :=
  c8_wl_run_collapse ["x"] ["-Wl,a", "-Wl,b", "-Wl,c"] []
    (by decide) (by decide) (by decide)

/-! ## Claim C6 -/

/-- C6, counterexample: with compile flags `x86_64` and link flags
`-arch x86_64`, the pair `-arch x86_64` is absent from the trimmed
compile flags (they are just `x86_64`), yet the link output is `-arch`,
not the verbatim pair: the value token `x86_64` is dropped by the second
link pass because it occurs among the compile tokens.  So "kept verbatim
when it is absent" is false as stated. -/
theorem c6_counterexample :
    trim_flags "x86_64" "-arch x86_64" = some ("x86_64", "-arch")
    ∧ ("-arch" : String) ≠ "-arch x86_64" := by
  decide

/-- C6, amended: when the link token stream reaches an `-arch <value>`
or `-isysroot <value>` pair, the pair is dropped as a unit iff the flag
token itself (not the pair) occurs among the trimmed compile tokens;
when the flag token is absent, the pair survives verbatim provided the
value token neither occurs among the trimmed compile tokens nor is
`-Wl,`-prefixed. -/
theorem c6_amended (a : String) (ha : a = "-arch" ∨ a = "-isysroot")
    (c : List String) (v : String) (post : List String) (tc tl : List String)
    (heq : trim_flags_core c post = some (tc, tl)) :
    (a ∈ tc → trim_flags_core c (a :: v :: post) = some (tc, tl))
    ∧ (a ∉ tc → v ∉ tc → strStartsWith v "-Wl," = false →
        trim_flags_core c (a :: v :: post) = some (tc, a :: v :: tl)) := by
  cases hdi : dropIncludes c with
  | none => simp [trim_flags_core, hdi] at heq
  | some base =>
    cases hda : dropArchPairs (deduplicate base) post with
    | none => simp [trim_flags_core, hdi, hda] at heq
    | some tl0 =>
      simp only [trim_flags_core, hdi, hda, Option.some.injEq,
        Prod.mk.injEq] at heq
      obtain ⟨htc, htl⟩ := heq
      subst htc
      subst htl
      constructor
      · intro hmem
        have hcond : (a = "-arch" ∨ a = "-isysroot") ∧ a ∈ deduplicate base :=
          ⟨ha, hmem⟩
        have hdrop : dropArchPairs (deduplicate base) (a :: v :: post)
            = dropArchPairs (deduplicate base) post := by
          simp [dropArchPairs, hcond]
        simp [trim_flags_core, hdi, hdrop, hda]
      · intro hna hnv hWl
        have hconda : ¬ ((a = "-arch" ∨ a = "-isysroot")
            ∧ a ∈ deduplicate base) := by
          rintro ⟨-, hmem⟩
          exact hna hmem
        have hcondv : ¬ ((v = "-arch" ∨ v = "-isysroot")
            ∧ v ∈ deduplicate base) := by
          rintro ⟨-, hmem⟩
          exact hnv hmem
        have haWl : strStartsWith a "-Wl," = false := by
          rcases ha with rfl | rfl <;> decide
        have hstep2 : dropArchPairs (deduplicate base) (v :: post)
            = some (v :: tl0) := by
          rw [dropArchPairs.eq_def]
          simp [hcondv, hda]
        have hdrop : dropArchPairs (deduplicate base) (a :: v :: post)
            = some (a :: v :: tl0) := by
          simp [dropArchPairs, hconda, hstep2]
        have hmw : mergeWlPass (deduplicate base) (a :: v :: tl0)
            = a :: v :: mergeWlPass (deduplicate base) tl0 := by
          rw [mergeWlPass_cons_notWl _ a _ haWl,
            mergeWlPass_cons_notWl _ v _ hWl]
          simp [hna, hnv]
        simp [trim_flags_core, hdi, hdrop, hmw]

/-- C6 witness: `-arch x86_64` is dropped when `-arch` occurs among the
trimmed compile tokens, and kept verbatim when neither `-arch` nor
`x86_64` occurs there. -/
theorem c6_witness :
    trim_flags_core ["-arch"] ["-arch", "x86_64"] = some (["-arch"], [])
    ∧ trim_flags_core [""] ["-arch", "x86_64"]
        = some ([""], ["-arch", "x86_64"]) :=
  ⟨(c6_amended "-arch" (Or.inl rfl) ["-arch"] "x86_64" [] ["-arch"] []
      (by decide)).1 (by decide),
   (c6_amended "-arch" (Or.inl rfl) [""] "x86_64" [] [""] []
      (by decide)).2 (by decide) (by decide) (by decide)⟩

/-! ## `resolve_library_paths` lemmas -/

/-- A path is collected by the name loop iff some input name's first
directory hit is that path. -/
theorem resolveNames_mem (ex : String → Bool) (dirs : List String) :
    ∀ (names : List String) (p : String),
      p ∈ (resolveNames ex dirs names).1
        ↔ ∃ n, n ∈ names ∧ firstHit ex dirs n = some p := by
  intro names
  induction names with
  | nil => intro p; simp [resolveNames]
  | cons name rest ih =>
    intro p
    cases hf : firstHit ex dirs name with
    | some q =>
      simp only [resolveNames, hf, List.mem_cons]
      constructor
      · rintro (rfl | hp)
        · exact ⟨name, Or.inl rfl, hf⟩
        · obtain ⟨n, hn, hhit⟩ := (ih p).mp hp
          exact ⟨n, Or.inr hn, hhit⟩
      · rintro ⟨n, hn | hn, hhit⟩
        · subst hn
          rw [hf] at hhit
          exact Or.inl (Option.some.inj hhit).symm
        · exact Or.inr ((ih p).mpr ⟨n, hn, hhit⟩)
    | none =>
      simp only [resolveNames, hf, List.mem_cons]
      rw [ih p]
      constructor
      · rintro ⟨n, hn, hhit⟩
        exact ⟨n, Or.inr hn, hhit⟩
      · rintro ⟨n, hn | hn, hhit⟩
        · subst hn
          rw [hf] at hhit
          exact absurd hhit (by simp)
        · exact ⟨n, hn, hhit⟩

/-- The passthrough flags are exactly `-l<name>` for the unresolved
names, in name order. -/
theorem resolveNames_flags (ex : String → Bool) (dirs : List String) :
    ∀ (names : List String),
      (resolveNames ex dirs names).2
        = names.filterMap (fun n =>
            match firstHit ex dirs n with
            | some _ => none
            | none => some ("-l" ++ n)) := by
  intro names
  induction names with
  | nil => simp [resolveNames]
  | cons name rest ih =>
    cases hf : firstHit ex dirs name with
    | some q => simp [resolveNames, hf, ih, List.filterMap_cons]
    | none => simp [resolveNames, hf, ih, List.filterMap_cons]

/-- `deduplicate` satisfies the `list(set(...))` contract. -/
theorem deduplicate_compliant : SetListCompliant deduplicate :=
  fun xs => ⟨deduplicate_nodup xs, fun a => deduplicate_mem a xs⟩

/-- Dedup-then-reverse satisfies the `list(set(...))` contract. -/
theorem revDedup_compliant : SetListCompliant revDedup := by
  intro xs
  constructor
  · simpa [revDedup] using deduplicate_nodup xs
  · intro a
    simp [revDedup, deduplicate_mem]

/-! ## Claim C5 -/

/-- C5, counterexample: the resolved paths are returned through
`list(set(paths))`, whose iteration order is unspecified.  Under the
compliant set order `revDedup` (one CPython can produce under hash
randomization), resolving names `a`, `b` against directory `d` (all
probes succeed) yields `[d/libb.a, d/liba.a]` — not the first-occurrence
order `[d/liba.a, d/libb.a]` the claim requires. -/
theorem c5_counterexample :
    SetListCompliant revDedup
    ∧ (resolve_library_paths (fun _ => true) revDedup ["a", "b"] ["d"]).1
        = ["d/libb.a", "d/liba.a"]
    ∧ deduplicate (resolveNames (fun _ => true) ["d"] ["a", "b"]).1
        = ["d/liba.a", "d/libb.a"]
    ∧ (["d/libb.a", "d/liba.a"] : List String) ≠ ["d/liba.a", "d/libb.a"] :=
  ⟨revDedup_compliant, by decide, by decide, by decide⟩

/-- C5, amended: for every compliant `list(set(...))` order, the
resolved archive paths are duplicate-free and contain exactly the first
existing `lib<name>.a` hits (first directory wins), but in unspecified
order; the passthrough flags are exactly `-l<name>` for each name with
no hit, in the order the names appeared. -/
theorem c5_amended (listSet : List String → List String)
    (hc : SetListCompliant listSet) (ex : String → Bool)
    (names dirs : List String) :
    (resolve_library_paths ex listSet names dirs).1.Nodup
    ∧ (∀ p, p ∈ (resolve_library_paths ex listSet names dirs).1
        ↔ ∃ n, n ∈ names ∧ firstHit ex dirs n = some p)
    ∧ (resolve_library_paths ex listSet names dirs).2
        = names.filterMap (fun n =>
            match firstHit ex dirs n with
            | some _ => none
            | none => some ("-l" ++ n)) := by
  obtain ⟨hnd, hmem⟩ := hc ((resolveNames ex dirs names).1)
  refine ⟨hnd, fun p => ?_, resolveNames_flags ex dirs names⟩
  rw [show (resolve_library_paths ex listSet names dirs).1
      = listSet ((resolveNames ex dirs names).1) from rfl]
  rw [hmem p, resolveNames_mem ex dirs names p]

/-- C5 witness: resolving `a`, `a`, `b` (duplicate name) against a
directory where every probe succeeds, through the compliant set order
`deduplicate`. -/
theorem c5_witness :
    (resolve_library_paths (fun _ => true) deduplicate
        ["a", "a", "b"] ["d"]).1.Nodup
    ∧ (∀ p, p ∈ (resolve_library_paths (fun _ => true) deduplicate
          ["a", "a", "b"] ["d"]).1
        ↔ ∃ n, n ∈ ["a", "a", "b"]
            ∧ firstHit (fun _ => true) ["d"] n = some p)
    ∧ (resolve_library_paths (fun _ => true) deduplicate
          ["a", "a", "b"] ["d"]).2
        = (["a", "a", "b"] : List String).filterMap (fun n =>
            match firstHit (fun _ => true) ["d"] n with
            | some _ => none
            | none => some ("-l" ++ n)) :=
  c5_amended deduplicate deduplicate_compliant (fun _ => true)
    ["a", "a", "b"] ["d"]

/-! ## `ingest_header` step lemmas -/

/-- A resolved line target decomposes into a parsed include name and a
successful closure lookup. -/
theorem lineTargets_some (all : List String) (line other : String)
    (h : lineTargets all line = some other) :
    ∃ name, parseInclude line = some name
      ∧ findLocal all name = some other := by
  unfold lineTargets at h
  cases hpi : parseInclude line with
  | none => rw [hpi] at h; exact absurd h (by simp)
  | some name => rw [hpi] at h; exact ⟨name, rfl, h⟩

/-- `ingest_lines` on no lines. -/
theorem ingest_lines_nil (fs : String → List String) (all : List String)
    (fuel : Nat) (processed result trace : List String) :
    ingest_lines fs all fuel [] processed result trace
      = some (processed, result, trace) := by
  rw [ingest_lines.eq_def]

/-- `ingest_lines` on a line that resolves to no local header: the line
is copied verbatim. -/
theorem ingest_lines_skip (fs : String → List String) (all : List String)
    (fuel : Nat) (line : String) (rest processed result trace : List String)
    (hlt : lineTargets all line = none) :
    ingest_lines fs all fuel (line :: rest) processed result trace
      = ingest_lines fs all fuel rest processed (result ++ [line]) trace := by
  rw [ingest_lines.eq_def]
  cases hpi : parseInclude line with
  | none => simp [hpi]
  | some name =>
    have hfl : findLocal all name = none := by
      unfold lineTargets at hlt
      rw [hpi] at hlt
      exact hlt
    simp [hpi, hfl]

/-- `ingest_lines` on a line resolving to an already-processed local
header: the line is dropped. -/
theorem ingest_lines_dup (fs : String → List String) (all : List String)
    (fuel : Nat) (line other : String)
    (rest processed result trace : List String)
    (hlt : lineTargets all line = some other) (hmem : other ∈ processed) :
    ingest_lines fs all fuel (line :: rest) processed result trace
      = ingest_lines fs all fuel rest processed result trace := by
  obtain ⟨name, hpi, hfl⟩ := lineTargets_some all line other hlt
  rw [ingest_lines.eq_def]
  simp [hpi, hfl, hmem]

/-- Out of fuel at a descent (never reached under the fuel provided by
`amalgamate`). -/
theorem ingest_lines_zero (fs : String → List String) (all : List String)
    (line other : String) (rest processed result trace : List String)
    (hlt : lineTargets all line = some other) (hmem : other ∉ processed) :
    ingest_lines fs all 0 (line :: rest) processed result trace = none := by
  obtain ⟨name, hpi, hfl⟩ := lineTargets_some all line other hlt
  rw [ingest_lines.eq_def]
  simp [hpi, hfl, hmem]

/-- Descent into an unprocessed local header whose ingestion succeeds:
mark it processed, splice its body, then continue with the remaining
lines. -/
theorem ingest_lines_descend_some (fs : String → List String)
    (all : List String) (fuel' : Nat) (line other : String)
    (rest processed result trace p1 r1 t1 : List String)
    (hlt : lineTargets all line = some other) (hmem : other ∉ processed)
    (hinner : ingest_lines fs all fuel' (fs other) (other :: processed)
        result (trace ++ [other]) = some (p1, r1, t1)) :
    ingest_lines fs all (fuel' + 1) (line :: rest) processed result trace
      = ingest_lines fs all (fuel' + 1) rest p1 r1 t1 := by
  obtain ⟨name, hpi, hfl⟩ := lineTargets_some all line other hlt
  rw [ingest_lines.eq_def]
  simp [hpi, hfl, hmem, hinner]

/-- Descent into an unprocessed local header whose ingestion runs out of
fuel. -/
theorem ingest_lines_descend_none (fs : String → List String)
    (all : List String) (fuel' : Nat) (line other : String)
    (rest processed result trace : List String)
    (hlt : lineTargets all line = some other) (hmem : other ∉ processed)
    (hinner : ingest_lines fs all fuel' (fs other) (other :: processed)
        result (trace ++ [other]) = none) :
    ingest_lines fs all (fuel' + 1) (line :: rest) processed result trace
      = none := by
  obtain ⟨name, hpi, hfl⟩ := lineTargets_some all line other hlt
  rw [ingest_lines.eq_def]
  simp [hpi, hfl, hmem, hinner]

/-! ## `ingest_header` invariants -/

/-- Filter with a weaker predicate is a sublist of filter with a
stronger one. -/
theorem filter_imp_sublist {α : Type} (p q : α → Bool)
    (h : ∀ a, p a = true → q a = true) :
    ∀ l : List α, (l.filter p).Sublist (l.filter q) := by
  intro l
  induction l with
  | nil => simp
  | cons b l2 ih =>
    by_cases hpb : p b = true
    · rw [List.filter_cons_of_pos hpb, List.filter_cons_of_pos (h b hpb)]
      exact ih.cons₂ b
    · rw [List.filter_cons_of_neg (by simpa using hpb)]
      by_cases hqb : q b = true
      · rw [List.filter_cons_of_pos hqb]
        exact ih.cons b
      · rw [List.filter_cons_of_neg (by simpa using hqb)]
        exact ih

/-- Strict filter-length decrease at an element kept by `q` but not by
`p`. -/
theorem filter_length_lt {α : Type} (p q : α → Bool) (a : α) (l : List α)
    (h : ∀ x, p x = true → q x = true) (ha : a ∈ l)
    (hpa : p a = false) (hqa : q a = true) :
    (l.filter p).length < (l.filter q).length := by
  have hs := filter_imp_sublist p q h l
  rcases Nat.lt_or_ge (l.filter p).length (l.filter q).length with hlt | hge
  · exact hlt
  · exfalso
    have heq : l.filter p = l.filter q :=
      hs.eq_of_length (le_antisymm hs.length_le hge)
    have hmq : a ∈ l.filter q := List.mem_filter.mpr ⟨ha, hqa⟩
    rw [← heq] at hmq
    have := (List.mem_filter.mp hmq).2
    rw [hpa] at this
    exact Bool.false_ne_true this

/-- Main invariant of one `ingest_lines` run: writing `Δ` for the local
headers newly marked processed, the final processed set is `Δ` on top of
the initial one, the ghost trace extends by `Δ` in splice order, no
header is ever processed twice (`Nodup`), every new header is a closure
member, every local target of the remaining `lines` ends up processed,
and every local target of every newly spliced header ends up processed
(the final processed set is closed under the include graph restricted to
what was ingested). -/
theorem ingest_lines_master (fs : String → List String) (all : List String) :
    ∀ (fuel : Nat) (lines : List String),
      ∀ (processed result trace p r t : List String),
        ingest_lines fs all fuel lines processed result trace
          = some (p, r, t) →
        processed.Nodup →
        ∃ Δ : List String,
          p = Δ ++ processed ∧ t = trace ++ Δ.reverse ∧ p.Nodup
          ∧ (∀ x ∈ Δ, x ∈ all)
          ∧ (∀ y ∈ lines.filterMap (lineTargets all), y ∈ p)
          ∧ (∀ x ∈ Δ, ∀ y ∈ (fs x).filterMap (lineTargets all), y ∈ p) := by
  intro fuel
  induction fuel using Nat.strong_induction_on with
  | _ fuel ihf =>
    intro lines
    induction lines with
    | nil =>
      intro processed result trace p r t heq hnd
      rw [ingest_lines_nil] at heq
      obtain ⟨rfl, rfl, rfl⟩ : processed = p ∧ result = r ∧ trace = t := by
        simpa using heq
      exact ⟨[], by simp, by simp, hnd, by simp, by simp, by simp⟩
    | cons line rest ihl =>
      intro processed result trace p r t heq hnd
      cases hlt : lineTargets all line with
      | none =>
        rw [ingest_lines_skip fs all fuel line rest processed result trace
          hlt] at heq
        obtain ⟨Δ, h1, h2, h3, h4, h5, h6⟩ :=
          ihl processed (result ++ [line]) trace p r t heq hnd
        refine ⟨Δ, h1, h2, h3, h4, ?_, h6⟩
        intro y hy
        rw [List.filterMap_cons] at hy
        rw [hlt] at hy
        exact h5 y hy
      | some other =>
        by_cases hmem : other ∈ processed
        · rw [ingest_lines_dup fs all fuel line other rest processed result
            trace hlt hmem] at heq
          obtain ⟨Δ, h1, h2, h3, h4, h5, h6⟩ :=
            ihl processed result trace p r t heq hnd
          refine ⟨Δ, h1, h2, h3, h4, ?_, h6⟩
          intro y hy
          rw [List.filterMap_cons] at hy
          rw [hlt] at hy
          rcases List.mem_cons.mp hy with rfl | hy
          · rw [h1]
            exact List.mem_append_right _ hmem
          · exact h5 y hy
        · cases fuel with
          | zero =>
            rw [ingest_lines_zero fs all line other rest processed result
              trace hlt hmem] at heq
            exact absurd heq (by simp)
          | succ fuel' =>
            cases hinner : ingest_lines fs all fuel' (fs other)
                (other :: processed) result (trace ++ [other]) with
            | none =>
              rw [ingest_lines_descend_none fs all fuel' line other rest
                processed result trace hlt hmem hinner] at heq
              exact absurd heq (by simp)
            | some out1 =>
              obtain ⟨p1, r1, t1⟩ := out1
              rw [ingest_lines_descend_some fs all fuel' line other rest
                processed result trace p1 r1 t1 hlt hmem hinner] at heq
              have hnd1 : (other :: processed).Nodup :=
                List.nodup_cons.mpr ⟨hmem, hnd⟩
              obtain ⟨Δ1, e1, e2, e3, e4, e5, e6⟩ :=
                ihf fuel' (Nat.lt_succ_self fuel') (fs other)
                  (other :: processed) result (trace ++ [other]) p1 r1 t1
                  hinner hnd1
              obtain ⟨Δ2, f1, f2, f3, f4, f5, f6⟩ :=
                ihl p1 r1 t1 p r t heq e3
              obtain ⟨name, hpi, hfl⟩ := lineTargets_some all line other hlt
              have hother_all : other ∈ all :=
                List.mem_of_find?_eq_some hfl
              have hp1p : ∀ y, y ∈ p1 → y ∈ p := by
                intro y hy
                rw [f1]
                exact List.mem_append_right _ hy
              have hop1 : other ∈ p1 := by
                rw [e1]
                exact List.mem_append_right _ (List.mem_cons_self _ _)
              refine ⟨Δ2 ++ Δ1 ++ [other], ?_, ?_, f3, ?_, ?_, ?_⟩
              · rw [f1, e1]
                simp
              · rw [f2, e2]
                simp
              · intro x hx
                simp only [List.mem_append, List.mem_singleton] at hx
                rcases hx with (hx | hx) | rfl
                · exact f4 x hx
                · exact e4 x hx
                · exact hother_all
              · intro y hy
                rw [List.filterMap_cons] at hy
                rw [hlt] at hy
                rcases List.mem_cons.mp hy with rfl | hy
                · exact hp1p _ hop1
                · exact f5 y hy
              · intro x hx y hy
                simp only [List.mem_append, List.mem_singleton] at hx
                rcases hx with (hx | hx) | rfl
                · exact f6 x hx y hy
                · exact hp1p y (e6 x hx y hy)
                · exact hp1p y (e5 y hy)

/-- Termination of one `ingest_lines` run: whenever the fuel is at least
the number of closure members not yet processed, the run returns a
result (amalgamation cannot run out of fuel, hence the Python recursion
terminates: every descent permanently marks an unprocessed closure
member as processed). -/
theorem ingest_lines_total (fs : String → List String) (all : List String) :
    ∀ (fuel : Nat) (lines processed result trace : List String),
      processed.Nodup →
      (all.filter (fun a => !(decide (a ∈ processed)))).length ≤ fuel →
      ∃ out, ingest_lines fs all fuel lines processed result trace
        = some out := by
  intro fuel
  induction fuel using Nat.strong_induction_on with
  | _ fuel ihf =>
    intro lines
    induction lines with
    | nil =>
      intro processed result trace hnd hbound
      exact ⟨_, ingest_lines_nil fs all fuel processed result trace⟩
    | cons line rest ihl =>
      intro processed result trace hnd hbound
      cases hlt : lineTargets all line with
      | none =>
        obtain ⟨out, hout⟩ :=
          ihl processed (result ++ [line]) trace hnd hbound
        exact ⟨out, by
          rw [ingest_lines_skip fs all fuel line rest processed result trace
            hlt]
          exact hout⟩
      | some other =>
        by_cases hmem : other ∈ processed
        · obtain ⟨out, hout⟩ := ihl processed result trace hnd hbound
          exact ⟨out, by
            rw [ingest_lines_dup fs all fuel line other rest processed result
              trace hlt hmem]
            exact hout⟩
        · obtain ⟨name, hpi, hfl⟩ := lineTargets_some all line other hlt
          have hother_all : other ∈ all := List.mem_of_find?_eq_some hfl
          have hlt_len : (all.filter
                (fun a => !(decide (a ∈ (other :: processed))))).length
              < (all.filter (fun a => !(decide (a ∈ processed)))).length := by
            refine filter_length_lt _ _ other all ?_ hother_all ?_ ?_
            · intro x hx
              simp only [Bool.not_eq_true', decide_eq_false_iff_not,
                List.mem_cons, not_or] at hx ⊢
              exact hx.2
            · simp
            · simpa using hmem
          cases fuel with
          | zero => omega
          | succ fuel' =>
            have hnd1 : (other :: processed).Nodup :=
              List.nodup_cons.mpr ⟨hmem, hnd⟩
            obtain ⟨out1, hinner⟩ :=
              ihf fuel' (Nat.lt_succ_self fuel') (fs other)
                (other :: processed) result (trace ++ [other]) hnd1
                (by omega)
            obtain ⟨p1, r1, t1⟩ := out1
            obtain ⟨Δ1, e1, -, e3, -, -, -⟩ :=
              ingest_lines_master fs all fuel' (fs other) (other :: processed)
                result (trace ++ [other]) p1 r1 t1 hinner hnd1
            have hsub : ∀ x, x ∈ (other :: processed) → x ∈ p1 := by
              intro x hx
              rw [e1]
              exact List.mem_append_right _ hx
            have hb1 : (all.filter (fun a => !(decide (a ∈ p1)))).length
                ≤ (all.filter
                    (fun a => !(decide (a ∈ (other :: processed))))).length :=
              (filter_imp_sublist _ _ (by
                intro x hx
                simp only [Bool.not_eq_true', decide_eq_false_iff_not] at hx ⊢
                exact fun hc => hx (hsub x hc)) all).length_le
            obtain ⟨out, hout⟩ := ihl p1 r1 t1 e3 (by omega)
            exact ⟨out, by
              rw [ingest_lines_descend_some fs all fuel' line other rest
                processed result trace p1 r1 t1 hlt hmem hinner]
              exact hout⟩

/-! ## Claim C2 -/

/-- C2, confirmed: for every filesystem and every nonempty closure —
including self-referential and mutually recursive local include chains —
amalgamation terminates with a result (`some`), and every local header
reachable from the umbrella header in the local-include graph is spliced
into the amalgamated output exactly once: it occurs exactly once among
the bodies emitted (the umbrella's own body plus the ghost splice
trace `t`), no matter how many local headers include it. -/
theorem c2_reachable_once (fs : String → List String) (umbrella h : String)
    (rest : List String)
    (hreach : Reaches fs (umbrella :: rest) umbrella h) :
    ∃ p r t, amalgamate fs (umbrella :: rest) = some (p, r, t)
      ∧ (umbrella :: t).count h = 1 := by
  have hbound : ((umbrella :: rest).filter
      (fun a => !(decide (a ∈ ([umbrella] : List String))))).length
      ≤ (umbrella :: rest).length := List.length_filter_le _ _
  obtain ⟨out, hout⟩ := ingest_lines_total fs (umbrella :: rest)
    (umbrella :: rest).length (fs umbrella) [umbrella] [] []
    (List.nodup_singleton umbrella) hbound
  obtain ⟨p, r, t⟩ := out
  obtain ⟨Δ, h1, h2, h3, -, h5, h6⟩ :=
    ingest_lines_master fs (umbrella :: rest) (umbrella :: rest).length
      (fs umbrella) [umbrella] [] [] p r t hout
      (List.nodup_singleton umbrella)
  have humb : umbrella ∈ p := by
    rw [h1]
    exact List.mem_append_right _ (List.mem_singleton_self umbrella)
  have hclosed : ∀ x ∈ p, ∀ y, edge fs (umbrella :: rest) x y → y ∈ p := by
    intro x hx y hy
    rw [h1] at hx
    rcases List.mem_append.mp hx with hxd | hxu
    · exact h6 x hxd y hy
    · have hxu2 : x = umbrella := by simpa using hxu
      subst hxu2
      exact h5 y hy
  have hreach2 : Relation.ReflTransGen (edge fs (umbrella :: rest))
      umbrella h := hreach
  have hmemp : h ∈ p := by
    clear hreach
    induction hreach2 with
    | refl => exact humb
    | tail hab hbc ih => exact hclosed _ ih _ hbc
  refine ⟨p, r, t, hout, ?_⟩
  have ht : umbrella :: t = p.reverse := by
    rw [h2, h1]
    simp
  rw [ht, List.count_reverse]
  exact List.count_eq_one_of_mem h3 hmemp

/-- C2 witness: the mutually recursive closure `src/a.h` ↔ `src/b.h`
terminates, and `src/b.h` (reachable from the umbrella by one include
edge) is spliced exactly once. -/
theorem c2_witness :
    ∃ p r t, amalgamate c2fs ["src/a.h", "src/b.h"] = some (p, r, t)
      ∧ ("src/a.h" :: t).count "src/b.h" = 1 :=
  c2_reachable_once c2fs "src/a.h" "src/b.h" ["src/b.h"]
    (Relation.ReflTransGen.single
      (show "src/b.h" ∈ (c2fs "src/a.h").filterMap
          (lineTargets ["src/a.h", "src/b.h"]) by decide))

/-! ## Claim C9 -/

/-- If no remaining line resolves to a local header, every line is
copied verbatim and the state is unchanged. -/
theorem ingest_lines_verbatim (fs : String → List String)
    (all : List String) :
    ∀ (lines : List String) (fuel : Nat)
      (processed result trace : List String),
      (∀ line ∈ lines, lineTargets all line = none) →
      ingest_lines fs all fuel lines processed result trace
        = some (processed, result ++ lines, trace) := by
  intro lines
  induction lines with
  | nil =>
    intro fuel processed result trace _
    simpa using ingest_lines_nil fs all fuel processed result trace
  | cons line rest ih =>
    intro fuel processed result trace hno
    rw [ingest_lines_skip fs all fuel line rest processed result trace
      (hno line (List.mem_cons_self _ _))]
    rw [ih fuel processed (result ++ [line]) trace
      (fun l hl => hno l (List.mem_cons_of_mem _ hl))]
    simp

/-- C9, confirmed: for a header `h` none of whose include directives
suffix-matches a file of the singleton closure `[h]`, amalgamating `h`
against `[h]` terminates and returns exactly the verbatim line sequence
of `h` (and splices nothing: the ghost trace is empty). -/
theorem c9_verbatim (fs : String → List String) (h : String)
    (hno : noLocalIncludes fs [h] h = true) :
    amalgamate fs [h] = some ([h], fs h, []) := by
  have hno2 : ∀ line ∈ fs h, lineTargets [h] line = none := by
    intro line hl
    unfold noLocalIncludes at hno
    have hline := List.all_eq_true.mp hno line hl
    unfold lineTargets
    cases hpi : parseInclude line with
    | none => rfl
    | some name =>
      rw [hpi] at hline
      simpa [Option.isNone_iff_eq_none] using hline
  show ingest_lines fs [h] 1 (fs h) [h] [] [] = some ([h], fs h, [])
  rw [ingest_lines_verbatim fs [h] (fs h) 1 [h] [] [] hno2]
  simp

/-- C9 witness: a header whose only include is the non-local
`#include <stdio.h>` amalgamates to its verbatim text. -/
theorem c9_witness :
    noLocalIncludes c9fs ["src/a.h"] "src/a.h" = true
    ∧ amalgamate c9fs ["src/a.h"] = some (["src/a.h"], c9fs "src/a.h", []) :=
  ⟨by decide, c9_verbatim c9fs "src/a.h" (by decide)⟩
